import Mathlib

/-!
Verification of the search-and-match core of `book_downloader.py`.

The program's strings are modelled as `List Char` (Python strings are
sequences of code points, and Python `len`/slicing count code points, so
`List Char` is the faithful carrier).  Network calls are modelled by an
`Option` argument carrying the decoded payload: `none` stands for any
exception raised inside the corresponding `try` block (network error,
timeout, undecodable or malformed payload), `some v` for a successful
call that decoded to `v`.  Each definition mirrors one function or one
inline loop of the source; the source line numbers are cited next to
each definition.
-/

namespace BookDownloader

abbrev Str := List Char

/-- Separator predicate for the two `replace` calls on line 307:
`book_name.replace('，', ' ').replace(',', ' ')` replaces the ASCII
comma and the full-width comma by a space. -/
def isSepComma (c : Char) : Bool := c == ',' || c == '，'

/-- Models `book_name.replace('，', ' ').replace(',', ' ')` (line 307).
Both patterns are single characters, so the two `replace` calls amount
to a character map. -/
def replace_commas (s : Str) : Str := s.map fun c => if isSepComma c then ' ' else c

/-- Models Python `str.split()` with no argument (line 307): splits on
runs of whitespace.  This version emits an empty piece at each
whitespace character; the empty pieces are discarded by the caller's
filter, giving the same final token list as Python's `split()`. -/
def splitWs : Str → List Str
  | [] => [[]]
  | c :: cs =>
    if c.isWhitespace then [] :: splitWs cs
    else
      match splitWs cs with
      | [] => [[c]]
      | p :: ps => (c :: p) :: ps

/-- Models Python `str.strip()` (line 307): removes leading and
trailing whitespace. -/
def pyStrip (s : Str) : Str :=
  ((s.dropWhile (·.isWhitespace)).reverse.dropWhile (·.isWhitespace)).reverse

/-- Models the keyword derivation on line 307:
`[k.strip() for k in book_name.replace('，',' ').replace(',',' ').split() if k.strip()]`.
The spec calls this operation the Keyword Tokenizer. -/
def tokenize (book_name : Str) : List Str :=
  (((splitWs (replace_commas book_name)).map pyStrip).filter (fun k => !k.isEmpty))

/-- Models `os.path.basename(path)` (line 312) and
`full_name.split('/')[-1]` (line 373): on POSIX both return the part of
the string after the last `/`. -/
def basename (p : Str) : Str :=
  p.foldl (fun acc c => if c == '/' then [] else acc ++ [c]) []

/-- Models Python `str.lower()` (lines 314-318).  `Char.toLower` lowers
the ASCII range; the comparisons in the source mix ASCII and CJK text,
and CJK has no case distinction. -/
def lowerStr (s : Str) : Str := s.map Char.toLower

/-- Models the Python substring operator `needle in hay` on strings. -/
def inStr : Str → Str → Bool
  | n, [] => n.isPrefixOf []
  | n, c :: cs => n.isPrefixOf (c :: cs) || inStr n cs

/-- The four substring tests of line 319:
`keyword in path or keyword in filename or kw_lower in path_lower or kw_lower in filename_lower`. -/
def token_matches (path fname k : Str) : Bool :=
  inStr k path || inStr k fname ||
    inStr (lowerStr k) (lowerStr path) || inStr (lowerStr k) (lowerStr fname)

/-- Models the inner keyword loop of lines 317-325: try each keyword in
order and stop at the first one that satisfies the four-way test
(`break` after the first append). -/
def firstMatch : List Str → Str → Str → Bool
  | [], _, _ => false
  | k :: ks, path, fname =>
    if token_matches path fname k then true else firstMatch ks path fname

/-- A matched file as built on lines 320-324:
`{'name': filename, 'path': path, 'repository': {'full_name': repo_name}}`. -/
structure Candidate where
  name : Str
  path : Str
  repo : Str
deriving DecidableEq, Repr

/-- Models `path.endswith('.epub')` (line 311). -/
def endsWithEpub (p : Str) : Bool := (".epub".toList).isSuffixOf p

/-- Models the tree loop of lines 309-325: for each entry path, keep it
when it ends in `.epub` and some keyword matches; results are appended
in tree-listing order. -/
def scan_tree_items (repo_name : Str) (keywords : List Str) : List Str → List Candidate
  | [] => []
  | path :: rest =>
    if endsWithEpub path then
      if firstMatch keywords path (basename path) then
        ⟨basename path, path, repo_name⟩ :: scan_tree_items repo_name keywords rest
      else scan_tree_items repo_name keywords rest
    else scan_tree_items repo_name keywords rest

/-- Models `search_repo_for_epub` (lines 289-329).  `fetched` is the
outcome of the tree-listing call: `none` for any exception inside the
`try` block (line 328 returns `[]`), `some tree` for a decoded payload
whose entries have the given `path` fields (an entry with no `path`
key yields `''`, which never ends in `.epub`). -/
def search_repo_for_epub (repo_name book_name : Str) (fetched : Option (List Str)) :
    List Candidate :=
  match fetched with
  | none => []
  | some tree => scan_tree_items repo_name (tokenize book_name) tree

/-- Models the repository loop of `show_progress_window` (lines
202-212): extend the accumulator with each repository's results and
break as soon as it holds at least 20 candidates. -/
def scanLoop (search_func : Str → List Candidate) :
    List Str → List Candidate → List Candidate
  | [], acc => acc
  | r :: rs, acc =>
    if 20 ≤ (acc ++ search_func r).length then acc ++ search_func r
    else scanLoop search_func rs (acc ++ search_func r)

/-- Models `show_progress_window` (lines 186-221) restricted to its
search behaviour; the progress HTML and browser control are
side effects with no bearing on the returned list. -/
def show_progress_window (repo_list : List Str) (search_func : Str → List Candidate) :
    List Candidate :=
  scanLoop search_func repo_list []

/-- The fixed priority list `KNOWN_EBOOK_REPOS` (lines 97-113). -/
def KNOWN_EBOOK_REPOS : List Str :=
  ["fancy88/iBook".toList,
   "threerocks/studyFiles".toList,
   "gedoor/legado".toList,
   "hehonghui/awesome-english-ebooks".toList,
   "itdevbooks/pdf".toList,
   "forthespada/CS-Books".toList,
   "imarvinle/awesome-cs-books".toList,
   "Tyson0314/java-books".toList,
   "justjavac/free-programming-books-zh_CN".toList,
   "EbookFoundation/free-programming-books".toList,
   "programthink/books".toList,
   "royeo/awesome-programming-books".toList,
   "XiangLinPro/IT_book".toList,
   "tangtangcoding/C-C-".toList,
   "woai3c/recommended-books".toList]

/-- The spec's three search stages.  The orchestrator model records
which stages were entered, so that short-circuit claims can be stated. -/
inductive Stage where
  | knownRepoScan
  | broadCodeSearch
  | repoNameFallback
deriving DecidableEq, Repr

/-- Models `search_github` (lines 223-257).  `scan` abstracts one call
`search_repo_for_epub(repo, book_name)` together with the network
behaviour of that repository; `broad` is the outcome of the `gh api
search/code` call: `none` for a raised exception or a non-zero exit
status or undecodable output, `some items` for decoded items.  The
second component lists the stages the run entered, in order: the
known-repository scan always runs; the broad code search runs only when
the scan accumulated nothing (line 234); no further stage exists in
this function (line 257 returns `[]`). -/
def search_github (scan : Str → List Candidate) (broad : Option (List Candidate)) :
    List Candidate × List Stage :=
  let all_results := show_progress_window KNOWN_EBOOK_REPOS scan
  if all_results = [] then
    match broad with
    | some items =>
      if items = [] then ([], [Stage.knownRepoScan, Stage.broadCodeSearch])
      else (items, [Stage.knownRepoScan, Stage.broadCodeSearch])
    | none => ([], [Stage.knownRepoScan, Stage.broadCodeSearch])
  else (all_results.take 20, [Stage.knownRepoScan])

/-- Models the repository loop of `search_github_repos` (lines
277-282): scan at most the first 3 found repositories, breaking once at
least 10 results accumulated. -/
def reposLoop (scanRepo : Str → List Candidate) :
    List Str → List Candidate → List Candidate
  | [], acc => acc
  | r :: rs, acc =>
    if 10 ≤ (acc ++ scanRepo r).length then acc ++ scanRepo r
    else reposLoop scanRepo rs (acc ++ scanRepo r)

/-- Models `search_github_repos` (lines 259-287).  `fetched` is the
outcome of the repository-search call (`none` for any exception, which
line 287 turns into `[]`; `some repos` for the decoded `full_name`
list); `scanRepo` abstracts `search_repo_for_epub(repo, book_name)`.
This function is defined in the source but never called: `main` only
calls `search_github`, which does not reach it. -/
def search_github_repos (scanRepo : Str → List Candidate)
    (fetched : Option (List Str)) : List Candidate :=
  match fetched with
  | none => []
  | some repos => reposLoop scanRepo (repos.take 3) []

/-- The character class of `re.sub(r'[<>:"/\\|?*]', '', name)`
(line 352). -/
def isUnsafeChar (c : Char) : Bool :=
  ['<', '>', ':', '\"', '/', '\\', '|', '?', '*'].contains c

/-- Models `sanitize_filename` (lines 350-352): delete every occurrence
of the unsafe characters.  It does not touch the extension. -/
def sanitize_filename (name : Str) : Str :=
  name.filter (fun c => !isUnsafeChar c)

/-- Models lines 407-408 of `main`:
`if not save_path.endswith('.epub'): save_path += '.epub'`.  This step
is applied to the chosen save path, not inside `sanitize_filename`. -/
def ensure_epub_suffix (p : Str) : Str :=
  if (".epub".toList).isSuffixOf p then p else p ++ ".epub".toList

/-- Models the guard of `main` (lines 356-359): `book_name` is `None`
when the dialog is cancelled; `if not book_name: sys.exit(0)` stops
only on `None` or the empty string, so `main` proceeds to
`search_github` (the first network activity) exactly when the input is
a non-empty string, whatever its content. -/
def main_proceeds (input : Option Str) : Bool :=
  match input with
  | none => false
  | some s => !s.isEmpty

/-- Models the label construction of lines 371-378:
`f"{name} ({repo})"` with `repo = full_name.split('/')[-1]`, truncated
to `display[:57] + "..."` when longer than 60 characters. -/
def display_label (c : Candidate) : Str :=
  let d := c.name ++ " (".toList ++ basename c.repo ++ ")".toList
  if 60 < d.length then d.take 57 ++ "...".toList else d

/-- The label list of lines 370-378, in result order. -/
def display_labels (results : List Candidate) : List Str :=
  results.map display_label

/-- Models the selection resolution of lines 390-391:
`idx = items.index(selected); item = results[idx]` — the index of the
first label equal to the selected one. -/
def resolve_selection (results : List Candidate) (selected : Str) : Option Candidate :=
  match (display_labels results).findIdx? (fun l => l == selected) with
  | none => none
  | some i => results.get? i

/-! ### Helper lemmas and concrete inputs used by the claim theorems -/

/-- A scan behaviour returning one fixed candidate for every repository;
used to instantiate hypotheses of the orchestrator theorems. -/
def oneCand : Candidate :=
  ⟨"a.epub".toList, "books/a.epub".toList, "o/r".toList⟩

/-- Scan behaviour that finds `oneCand` in every repository. -/
def oneScan : Str → List Candidate := fun _ => [oneCand]

/-- Scan behaviour that finds nothing anywhere (all repositories empty
or failing, since a failing repository also contributes `[]`). -/
def noScan : Str → List Candidate := fun _ => []

/-- With an empty keyword list the tree loop appends nothing: the inner
keyword loop never fires. -/
theorem scan_tree_items_no_keywords (repo_name : Str) :
    ∀ tree : List Str, scan_tree_items repo_name [] tree = [] := by
  intro tree
  induction tree with
  | nil => rfl
  | cons p rest ih => simp [scan_tree_items, firstMatch, ih]

/-- Invariant of the repository loop (lines 202-212): starting from an
accumulator below the cap, the loop returns the accumulator extended by
the concatenated outputs of the first `k` repositories, where scanning
stopped either at the end of the list or at the first `k` whose
accumulated total reached the cap of 20. -/
theorem scanLoop_spec (scan : Str → List Candidate) :
    ∀ (repos : List Str) (acc : List Candidate), acc.length < 20 →
      ∃ k, k ≤ repos.length ∧
        scanLoop scan repos acc = acc ++ ((repos.take k).map scan).flatten ∧
        (k = repos.length ∨
          20 ≤ acc.length + (((repos.take k).map scan).flatten).length) ∧
        (∀ j, j < k →
          acc.length + (((repos.take j).map scan).flatten).length < 20) := by
  intro repos
  induction repos with
  | nil =>
    intro acc hacc
    exact ⟨0, Nat.le_refl 0, by simp [scanLoop], Or.inl rfl, by omega⟩
  | cons r rs ih =>
    intro acc hacc
    by_cases h20 : 20 ≤ (acc ++ scan r).length
    · refine ⟨1, by simp, ?_, ?_, ?_⟩
      · simp only [scanLoop]
        rw [if_pos h20]
        simp [List.take_succ_cons]
      · right
        simpa using h20
      · intro j hj
        have hj0 : j = 0 := by omega
        subst hj0
        simpa using hacc
    · have hlt : (acc ++ scan r).length < 20 := by omega
      obtain ⟨k, hk, heq, hstop, hmin⟩ := ih (acc ++ scan r) hlt
      refine ⟨k + 1, by simpa using Nat.succ_le_succ hk, ?_, ?_, ?_⟩
      · simp only [scanLoop]
        rw [if_neg h20, heq]
        simp [List.take_succ_cons, List.append_assoc]
      · rcases hstop with hend | hcap
        · exact Or.inl (by simp [hend])
        · right
          simp only [List.take_succ_cons, List.map_cons, List.flatten_cons,
            List.length_append]
          simp only [List.length_append] at hcap
          omega
      · intro j hj
        cases j with
        | zero => simpa using hacc
        | succ j =>
          have hjk : j < k := by omega
          have := hmin j hjk
          simp only [List.take_succ_cons, List.map_cons, List.flatten_cons,
            List.length_append] at this ⊢
          omega

/-! ### Claim theorems -/

/-- C1: if the known-repository scan accumulates at least one
candidate, `search_github` returns that accumulation truncated to the
cap of 20 as the final result, and neither the broad code search nor
the repository-name fallback stage is ever entered. -/
theorem knownRepoScan_shortCircuit (scan : Str → List Candidate)
    (broad : Option (List Candidate))
    (h : show_progress_window KNOWN_EBOOK_REPOS scan ≠ []) :
    search_github scan broad =
      ((show_progress_window KNOWN_EBOOK_REPOS scan).take 20, [Stage.knownRepoScan]) ∧
    Stage.broadCodeSearch ∉ (search_github scan broad).2 ∧
    Stage.repoNameFallback ∉ (search_github scan broad).2 := by
  have he : search_github scan broad =
      ((show_progress_window KNOWN_EBOOK_REPOS scan).take 20, [Stage.knownRepoScan]) := by
    simp only [search_github]
    rw [if_neg h]
  refine ⟨he, ?_, ?_⟩ <;> rw [he] <;> simp

/-- C1 witness: a concrete behaviour finding one book per repository
satisfies the hypothesis, and the orchestrator short-circuits on it. -/
theorem knownRepoScan_shortCircuit_witness :
    show_progress_window KNOWN_EBOOK_REPOS oneScan ≠ [] ∧
    (search_github oneScan none =
      ((show_progress_window KNOWN_EBOOK_REPOS oneScan).take 20, [Stage.knownRepoScan]) ∧
    Stage.broadCodeSearch ∉ (search_github oneScan none).2 ∧
    Stage.repoNameFallback ∉ (search_github oneScan none).2) :=
  ⟨by decide, knownRepoScan_shortCircuit oneScan none (by decide)⟩

/-- C2: the known-repository stage result (the accumulator truncated
to the cap, as `search_github` returns it on line 235) is the
concatenation of the matcher outputs of the first `k` scanned
repositories — so candidates appear in repository-list order and, per
repository, in tree-listing order, and nothing from an unscanned
repository appears — truncated to at most 20; it is a prefix of the
concatenation of all outputs, and the loop stops at the first
repository whose accumulated total reaches 20 (every proper prefix of
the scanned region is below the cap). -/
theorem knownRepoScan_cap_order :
    ∀ (repo_list : List Str) (scan : Str → List Candidate),
      ∃ k, k ≤ repo_list.length ∧
        show_progress_window repo_list scan = ((repo_list.take k).map scan).flatten ∧
        (k = repo_list.length ∨
          20 ≤ (((repo_list.take k).map scan).flatten).length) ∧
        (∀ j, j < k → (((repo_list.take j).map scan).flatten).length < 20) ∧
        (∃ rest, (show_progress_window repo_list scan).take 20 ++ rest =
          (repo_list.map scan).flatten) ∧
        ((show_progress_window repo_list scan).take 20).length ≤ 20 := by
  intro repo_list scan
  obtain ⟨k, hk, heq, hstop, hmin⟩ := scanLoop_spec scan repo_list [] (by simp)
  have heq' : show_progress_window repo_list scan = ((repo_list.take k).map scan).flatten := by
    simpa [show_progress_window] using heq
  have hall : ((repo_list.take k).map scan).flatten ++
      ((repo_list.drop k).map scan).flatten = (repo_list.map scan).flatten := by
    rw [← List.flatten_append, ← List.map_append, List.take_append_drop]
  refine ⟨k, hk, heq', by simpa using hstop, by simpa using hmin, ?_, ?_⟩
  · refine ⟨(show_progress_window repo_list scan).drop 20 ++
      ((repo_list.drop k).map scan).flatten, ?_⟩
    rw [← List.append_assoc, List.take_append_drop, heq', hall]
  · exact List.length_take_le 20 _

/-- The inner keyword loop with `break` returns true exactly when some
keyword passes the four-way test. -/
theorem firstMatch_eq_any (ks : List Str) (path fname : Str) :
    firstMatch ks path fname = ks.any (token_matches path fname) := by
  induction ks with
  | nil => rfl
  | cons k ks ih => cases h : token_matches path fname k <;> simp [firstMatch, h, ih]

/-- The tree loop keeps exactly the `.epub` entries with a matching
keyword, in tree order. -/
theorem scan_tree_items_eq (repo_name : Str) (keywords : List Str) :
    ∀ tree : List Str,
      scan_tree_items repo_name keywords tree =
        (tree.filter (fun p =>
            endsWithEpub p && keywords.any (token_matches p (basename p)))).map
          (fun p => ⟨basename p, p, repo_name⟩) := by
  intro tree
  induction tree with
  | nil => rfl
  | cons p rest ih =>
    cases he : endsWithEpub p
    · simp [scan_tree_items, he, List.filter_cons, ih]
    · cases hm : firstMatch keywords p (basename p)
      · have ha : keywords.any (token_matches p (basename p)) = false := by
          rw [← firstMatch_eq_any]
          exact hm
        simp [scan_tree_items, he, hm, ha, List.filter_cons, ih]
      · have ha : keywords.any (token_matches p (basename p)) = true := by
          rw [← firstMatch_eq_any]
          exact hm
        simp [scan_tree_items, he, hm, ha, List.filter_cons, ih]

/-- C3: on a fetched tree, the matcher returns exactly the entries
whose path ends in `.epub` and for which some token passes one of the
four substring tests (token in path, token in file name, lowercased
token in lowercased path, lowercased token in lowercased file name);
the keyword loop short-circuits but that does not change the kept set.
Concretely, a tree holding `books/Clean_Code.epub` queried with token
`Clean` yields exactly that one candidate, and a tree with no `.epub`
path yields the empty sequence. -/
theorem tree_matcher_spec :
    (∀ (repo_name book_name : Str) (tree : List Str),
      search_repo_for_epub repo_name book_name (some tree) =
        (tree.filter (fun p => endsWithEpub p &&
            (tokenize book_name).any (fun k =>
              inStr k p || inStr k (basename p) ||
                inStr (lowerStr k) (lowerStr p) ||
                inStr (lowerStr k) (lowerStr (basename p))))).map
          (fun p => ⟨basename p, p, repo_name⟩)) ∧
    search_repo_for_epub ("o/r".toList) ("Clean".toList)
        (some ["README.md".toList, "books/Clean_Code.epub".toList]) =
      [⟨"Clean_Code.epub".toList, "books/Clean_Code.epub".toList, "o/r".toList⟩] ∧
    (∀ (repo_name book_name : Str) (tree : List Str),
      (∀ p ∈ tree, endsWithEpub p = false) →
        search_repo_for_epub repo_name book_name (some tree) = []) := by
  refine ⟨?_, by decide, ?_⟩
  · intro repo_name book_name tree
    simp only [search_repo_for_epub]
    rw [scan_tree_items_eq]
    exact rfl
  · intro repo_name book_name tree h
    simp only [search_repo_for_epub]
    rw [scan_tree_items_eq]
    have hf : tree.filter (fun p =>
        endsWithEpub p && (tokenize book_name).any (token_matches p (basename p))) = [] :=
      List.filter_eq_nil_iff.mpr (fun p hp => by simp [h p hp])
    rw [hf]
    rfl

/-- C3 witness: a tree with no `.epub` entry satisfies the hypothesis
of the last part and indeed yields the empty sequence. -/
theorem tree_matcher_spec_witness :
    (∀ p ∈ (["README.md".toList] : List Str), endsWithEpub p = false) ∧
    search_repo_for_epub ("o/r".toList) ("Clean".toList)
      (some ["README.md".toList]) = [] :=
  ⟨by decide, tree_matcher_spec.2.2 _ _ _ (by decide)⟩

/-- C4: whatever the repository and title, when the tree-listing call
fails in any way (`none`), the matcher returns the empty sequence
instead of propagating the error. -/
theorem tree_matcher_error_empty :
    ∀ repo_name book_name : Str,
      search_repo_for_epub repo_name book_name none = [] :=
  fun _ _ => rfl

/-- C5 counterexample: with every known repository yielding nothing and
the broad code search failing, `search_github` returns the empty result
and the repository-name fallback stage is never entered —
`search_github_repos` exists in the source but has no caller. -/
theorem repoNameFallback_never_entered_cex :
    show_progress_window KNOWN_EBOOK_REPOS noScan = [] ∧
    search_github noScan none = ([], [Stage.knownRepoScan, Stage.broadCodeSearch]) ∧
    Stage.repoNameFallback ∉ (search_github noScan none).2 := by decide

/-- C5 amended: when the known-repository scan yields zero candidates
and the broad code search fails or yields zero items, the orchestrator
returns the empty result without entering a repository-name fallback
stage.  The source defines such a stage (`search_github_repos`, which
consults only the top 3 returned repositories and absorbs endpoint
failure into `[]`) but never invokes it. -/
theorem repoNameFallback_not_reached_amended (scan : Str → List Candidate)
    (broad : Option (List Candidate))
    (h1 : show_progress_window KNOWN_EBOOK_REPOS scan = [])
    (h2 : broad = none ∨ broad = some []) :
    search_github scan broad = ([], [Stage.knownRepoScan, Stage.broadCodeSearch]) ∧
    Stage.repoNameFallback ∉ (search_github scan broad).2 ∧
    (∀ (scanRepo : Str → List Candidate) (repos : List Str),
      search_github_repos scanRepo (some repos) =
        search_github_repos scanRepo (some (repos.take 3))) ∧
    (∀ scanRepo : Str → List Candidate, search_github_repos scanRepo none = []) := by
  have he : search_github scan broad = ([], [Stage.knownRepoScan, Stage.broadCodeSearch]) := by
    rcases h2 with h2 | h2 <;> subst h2 <;> simp [search_github, h1]
  refine ⟨he, ?_, ?_, fun _ => rfl⟩
  · rw [he]; decide
  · intro scanRepo repos
    simp only [search_github_repos]
    rw [List.take_take, Nat.min_self]

/-- C5 amended witness: the all-empty behaviour satisfies both
hypotheses; the orchestrator ends with the empty result and no
fallback stage. -/
theorem repoNameFallback_not_reached_amended_witness :
    show_progress_window KNOWN_EBOOK_REPOS noScan = [] ∧
    (search_github noScan none = ([], [Stage.knownRepoScan, Stage.broadCodeSearch]) ∧
    Stage.repoNameFallback ∉ (search_github noScan none).2 ∧
    (∀ (scanRepo : Str → List Candidate) (repos : List Str),
      search_github_repos scanRepo (some repos) =
        search_github_repos scanRepo (some (repos.take 3))) ∧
    (∀ scanRepo : Str → List Candidate, search_github_repos scanRepo none = [])) :=
  ⟨by decide, repoNameFallback_not_reached_amended noScan none (by decide) (Or.inl rfl)⟩

/-- Python `split()` always yields at least one piece in this model. -/
theorem splitWs_ne_nil : ∀ l : Str, splitWs l ≠ [] := by
  intro l
  induction l with
  | nil => simp [splitWs]
  | cons c cs ih =>
    cases h : c.isWhitespace
    · cases hs : splitWs cs with
      | nil => exact absurd hs ih
      | cons p ps => simp [splitWs, h, hs]
    · simp [splitWs, h]

/-- Pieces produced by the whitespace split contain no whitespace. -/
theorem mem_splitWs_no_ws :
    ∀ (l p : Str), p ∈ splitWs l → ∀ c ∈ p, c.isWhitespace = false := by
  intro l
  induction l with
  | nil =>
    intro p hp c hc
    simp only [splitWs, List.mem_singleton] at hp
    subst hp
    simp at hc
  | cons a cs ih =>
    intro p hp c hc
    cases h : a.isWhitespace
    · cases hs : splitWs cs with
      | nil => exact absurd hs (splitWs_ne_nil cs)
      | cons q qs =>
        rw [show splitWs (a :: cs) = (a :: q) :: qs by simp [splitWs, h, hs]] at hp
        rcases List.mem_cons.mp hp with rfl | hps
        · rcases List.mem_cons.mp hc with rfl | hcq
          · exact h
          · exact ih q (by rw [hs]; exact List.mem_cons_self q qs) c hcq
        · exact ih p (by rw [hs]; exact List.mem_cons_of_mem q hps) c hc
    · rw [show splitWs (a :: cs) = [] :: splitWs cs by simp [splitWs, h]] at hp
      rcases List.mem_cons.mp hp with rfl | hps
      · simp at hc
      · exact ih p hps c hc

/-- Characters of the split pieces come from the split string. -/
theorem mem_splitWs_sub :
    ∀ (l p : Str), p ∈ splitWs l → ∀ c ∈ p, c ∈ l := by
  intro l
  induction l with
  | nil =>
    intro p hp c hc
    simp only [splitWs, List.mem_singleton] at hp
    subst hp
    simp at hc
  | cons a cs ih =>
    intro p hp c hc
    cases h : a.isWhitespace
    · cases hs : splitWs cs with
      | nil => exact absurd hs (splitWs_ne_nil cs)
      | cons q qs =>
        rw [show splitWs (a :: cs) = (a :: q) :: qs by simp [splitWs, h, hs]] at hp
        rcases List.mem_cons.mp hp with rfl | hps
        · rcases List.mem_cons.mp hc with rfl | hcq
          · exact List.mem_cons_self c cs
          · exact List.mem_cons_of_mem a
              (ih q (by rw [hs]; exact List.mem_cons_self q qs) c hcq)
        · exact List.mem_cons_of_mem a
            (ih p (by rw [hs]; exact List.mem_cons_of_mem q hps) c hc)
    · rw [show splitWs (a :: cs) = [] :: splitWs cs by simp [splitWs, h]] at hp
      rcases List.mem_cons.mp hp with rfl | hps
      · simp at hc
      · exact List.mem_cons_of_mem a (ih p hps c hc)

/-- Stripping is the identity on whitespace-free strings. -/
theorem pyStrip_no_ws_id (s : Str) (h : ∀ c ∈ s, c.isWhitespace = false) :
    pyStrip s = s := by
  have hdw : ∀ t : Str, (∀ c ∈ t, c.isWhitespace = false) →
      t.dropWhile (·.isWhitespace) = t := by
    intro t ht
    cases t with
    | nil => rfl
    | cons a u =>
      rw [List.dropWhile_cons]
      simp [ht a (List.mem_cons_self a u)]
  unfold pyStrip
  rw [hdw s h]
  rw [hdw s.reverse (fun c hc => h c (List.mem_reverse.mp hc))]
  exact List.reverse_reverse s

/-- Characters surviving the comma replacement are never commas. -/
theorem mem_replace_commas_not_sep (s : Str) (c : Char)
    (hc : c ∈ replace_commas s) : isSepComma c = false := by
  obtain ⟨a, _, rfl⟩ := List.mem_map.mp hc
  cases h : isSepComma a
  · simp [h]
  · simp only [h, if_true]
    decide

/-- Every piece of the whitespace split is empty exactly when the split
string is all whitespace. -/
theorem splitWs_all_nil_iff : ∀ l : Str,
    (∀ p ∈ splitWs l, p = []) ↔ (∀ c ∈ l, c.isWhitespace = true) := by
  intro l
  induction l with
  | nil => simp [splitWs]
  | cons a cs ih =>
    cases h : a.isWhitespace
    · cases hs : splitWs cs with
      | nil => exact absurd hs (splitWs_ne_nil cs)
      | cons q qs =>
        constructor
        · intro hall
          have h1 := hall (a :: q)
            (by rw [show splitWs (a :: cs) = (a :: q) :: qs by simp [splitWs, h, hs]]
                exact List.mem_cons_self _ _)
          simp at h1
        · intro hall
          have h1 := hall a (List.mem_cons_self a cs)
          rw [h1] at h
          simp at h
    · have hsw : splitWs (a :: cs) = [] :: splitWs cs := by simp [splitWs, h]
      rw [hsw]
      constructor
      · intro hall c hc
        rcases List.mem_cons.mp hc with rfl | hcc
        · exact h
        · exact (ih.mp (fun p hp => hall p (List.mem_cons_of_mem [] hp))) c hcc
      · intro hall p hp
        rcases List.mem_cons.mp hp with rfl | hps
        · rfl
        · exact (ih.mpr (fun c hc => hall c (List.mem_cons_of_mem a hc))) p hps

/-- The tokenizer yields no tokens exactly when every character of the
title is whitespace or a separator comma. -/
theorem tokenize_empty_iff (title : Str) :
    tokenize title = [] ↔
      ∀ c ∈ title, (c.isWhitespace || isSepComma c) = true := by
  have step1 : tokenize title = [] ↔
      ∀ p ∈ splitWs (replace_commas title), pyStrip p = [] := by
    simp [tokenize, List.filter_eq_nil_iff, List.mem_map]
  have step2 : (∀ p ∈ splitWs (replace_commas title), pyStrip p = []) ↔
      (∀ p ∈ splitWs (replace_commas title), p = []) := by
    constructor
    · intro hall p hp
      have h1 := hall p hp
      rwa [pyStrip_no_ws_id p (mem_splitWs_no_ws _ p hp)] at h1
    · intro hall p hp
      rw [hall p hp]
      rfl
  have step4 : (∀ c ∈ replace_commas title, c.isWhitespace = true) ↔
      (∀ c ∈ title, (c.isWhitespace || isSepComma c) = true) := by
    constructor
    · intro hall c hc
      cases hsep : isSepComma c
      · have hc' : c ∈ replace_commas title := by
          simp only [replace_commas, List.mem_map]
          exact ⟨c, hc, by simp [hsep]⟩
        simp [hall c hc']
      · simp [hsep]
    · intro hall c hc
      simp only [replace_commas, List.mem_map] at hc
      obtain ⟨a, ha, rfl⟩ := hc
      cases hsep : isSepComma a
      · simpa [hsep] using hall a ha
      · simp only [hsep, if_true]
        decide
  exact step1.trans (step2.trans ((splitWs_all_nil_iff _).trans step4))

/-- C6: tokenizing `"Clean Code, 代码整洁之道"` gives exactly
`["Clean", "Code", "代码整洁之道"]`, and the same with the full-width
comma; in general every token is non-empty and contains no whitespace,
no ASCII comma and no full-width comma — the tokenizer splits at those
characters, trims, and drops empty pieces. -/
theorem tokenize_spec :
    tokenize ("Clean Code, 代码整洁之道".toList) =
      ["Clean".toList, "Code".toList, "代码整洁之道".toList] ∧
    tokenize ("Clean Code，代码整洁之道".toList) =
      ["Clean".toList, "Code".toList, "代码整洁之道".toList] ∧
    (∀ (title t : Str), t ∈ tokenize title →
      t ≠ [] ∧ ∀ c ∈ t, c.isWhitespace = false ∧ c ≠ ',' ∧ c ≠ '，') := by
  refine ⟨by decide, by decide, ?_⟩
  intro title t ht
  simp only [tokenize, List.mem_filter, List.mem_map] at ht
  obtain ⟨⟨p, hp, rfl⟩, hne⟩ := ht
  have hnws : ∀ c ∈ p, c.isWhitespace = false := mem_splitWs_no_ws _ p hp
  have hid : pyStrip p = p := pyStrip_no_ws_id p hnws
  rw [hid] at hne ⊢
  refine ⟨by simpa using hne, ?_⟩
  intro c hc
  have h2 : c ∈ replace_commas title := mem_splitWs_sub _ p hp c hc
  have h3 : isSepComma c = false := mem_replace_commas_not_sep _ c h2
  simp only [isSepComma, Bool.or_eq_false_iff] at h3
  exact ⟨hnws c hc, by simpa using h3.1, by simpa using h3.2⟩

/-- C6 witness: the token `"Clean"` from the spec's example satisfies
the guarantees. -/
theorem tokenize_spec_witness :
    "Clean".toList ∈ tokenize ("Clean Code, 代码整洁之道".toList) ∧
    ("Clean".toList ≠ [] ∧
      ∀ c ∈ "Clean".toList, c.isWhitespace = false ∧ c ≠ ',' ∧ c ≠ '，') :=
  ⟨by decide,
   tokenize_spec.2.2 ("Clean Code, 代码整洁之道".toList) ("Clean".toList) (by decide)⟩

/-- C7 counterexample: the title `" "` tokenizes to no tokens, yet
`main` does not reject it — its guard `if not book_name` passes any
non-empty string, so the search (and its network calls) still runs. -/
theorem whitespace_title_not_rejected_cex :
    tokenize (" ".toList) = [] ∧ main_proceeds (some (" ".toList)) = true := by decide

/-- C7 amended: tokenization yields no tokens exactly when the title
consists only of whitespace and separator commas, as claimed; but the
caller rejects the query before any network call only when the dialog
was cancelled or the title is the empty string — a whitespace-only
title is not rejected and still reaches the network stage. -/
theorem tokenize_empty_iff_amended :
    (∀ title : Str, tokenize title = [] ↔
      ∀ c ∈ title, (c.isWhitespace || isSepComma c) = true) ∧
    (∀ input : Option Str, main_proceeds input = true ↔
      ∃ s, input = some s ∧ s ≠ []) := by
  refine ⟨tokenize_empty_iff, ?_⟩
  intro input
  cases input <;> simp [main_proceeds]

/-- C7 amended witness: the all-separator title `"，, "` yields no
tokens, and the non-empty title `"x"` passes the guard. -/
theorem tokenize_empty_iff_amended_witness :
    tokenize ("，, ".toList) = [] ∧ main_proceeds (some ("x".toList)) = true :=
  ⟨(tokenize_empty_iff_amended.1 _).mpr (by decide),
   (tokenize_empty_iff_amended.2 _).mpr ⟨"x".toList, rfl, by decide⟩⟩

/-- C8 counterexample: `sanitize_filename "MyBook"` is `"MyBook"`, not
`"MyBook.epub"` — the function strips unsafe characters but never
appends the extension. -/
theorem sanitize_no_extension_cex :
    sanitize_filename ("MyBook".toList) = "MyBook".toList ∧
    (".epub".toList).isSuffixOf (sanitize_filename ("MyBook".toList)) = false := by decide

/-- C8 amended: `sanitize_filename` removes exactly the characters
`<>:"/\|?*` (kept characters keep their multiplicity and order); the
`".epub"` extension is guaranteed by a separate step of `main` that
appends it to the chosen save path when absent, so the composition of
the two steps on `"MyBook"` yields `"MyBook.epub"`. -/
theorem sanitize_amended :
    (∀ (name : Str) (c : Char),
      (sanitize_filename name).count c = if isUnsafeChar c then 0 else name.count c) ∧
    (∀ name : Str, List.Sublist (sanitize_filename name) name) ∧
    (∀ p : Str, ∃ q : Str, ensure_epub_suffix p = q ++ ".epub".toList) ∧
    ensure_epub_suffix (sanitize_filename ("MyBook".toList)) = "MyBook.epub".toList := by
  refine ⟨?_, fun name => List.filter_sublist name, ?_, by decide⟩
  · intro name c
    by_cases hc : isUnsafeChar c = true
    · simp only [hc, if_true]
      exact List.count_eq_zero.mpr (fun hmem => by
        have := (List.mem_filter.mp hmem).2
        simp [hc] at this)
    · simp only [hc, if_false]
      exact List.count_filter (by simp [hc])
  · intro p
    by_cases hsuf : (".epub".toList).isSuffixOf p = true
    · obtain ⟨q, hq⟩ := (List.isSuffixOf_iff_suffix).mp hsuf
      exact ⟨q, by simp only [ensure_epub_suffix, hsuf, if_true]; exact hq.symm⟩
    · exact ⟨p, by simp only [ensure_epub_suffix]; rw [if_neg (by simpa using hsuf)]⟩

/-- In a duplicate-free list, searching for the element at position `i`
finds exactly position `i` (offset by the running start index). -/
theorem findIdx_first_eq (x : Str) :
    ∀ (ls : List Str) (i : Nat) (h : i < ls.length), ls.Nodup →
      ls.get ⟨i, h⟩ = x →
      ∀ s : Nat, ls.findIdx? (fun l => l == x) s = some (s + i) := by
  intro ls
  induction ls with
  | nil =>
    intro i h
    exact absurd h (Nat.not_lt_zero i)
  | cons a t ih =>
    intro i h hnd hx s
    have hnd' := List.nodup_cons.mp hnd
    cases i with
    | zero =>
      have ha : a = x := hx
      simp [List.findIdx?_cons, ha]
    | succ j =>
      have hj : j < t.length := by
        simp only [List.length_cons] at h
        omega
      have hxt : t.get ⟨j, hj⟩ = x := hx
      have hmem : x ∈ t := hxt ▸ List.get_mem t j hj
      have hne : (a == x) = false :=
        beq_eq_false_iff_ne.mpr (fun heq => hnd'.1 (heq ▸ hmem))
      simp only [List.findIdx?_cons, hne, Bool.false_eq_true, if_false]
      rw [ih j hj hnd'.2 hxt (s + 1)]
      congr 1
      omega

/-- C9 counterexample: two distinct candidates (same file name, same
repository, different paths) produce the same label, and resolving that
label yields the first candidate, not the one that produced it — the
label map is not one-to-one. -/
theorem label_collision_cex :
    display_label ⟨"Book.epub".toList, "y/Book.epub".toList, "o/r".toList⟩ =
      display_label ⟨"Book.epub".toList, "x/Book.epub".toList, "o/r".toList⟩ ∧
    (⟨"Book.epub".toList, "y/Book.epub".toList, "o/r".toList⟩ : Candidate) ≠
      ⟨"Book.epub".toList, "x/Book.epub".toList, "o/r".toList⟩ ∧
    resolve_selection
      [⟨"Book.epub".toList, "x/Book.epub".toList, "o/r".toList⟩,
       ⟨"Book.epub".toList, "y/Book.epub".toList, "o/r".toList⟩]
      (display_label ⟨"Book.epub".toList, "y/Book.epub".toList, "o/r".toList⟩) =
      some ⟨"Book.epub".toList, "x/Book.epub".toList, "o/r".toList⟩ := by decide

/-- C9 amended: labels are produced per candidate in result order as
`"<file name> (<repository short name>)"` truncated to at most 60
characters with a `"..."` marker; selecting a label resolves to the
first candidate whose label equals it, which is the producing candidate
whenever the labels are pairwise distinct (but not in general: distinct
candidates can share a label). -/
theorem display_labels_amended :
    (∀ results : List Candidate,
      display_labels results = results.map display_label ∧
      (display_labels results).length = results.length) ∧
    (∀ c : Candidate, (display_label c).length ≤ 60) ∧
    (∀ results : List Candidate, (display_labels results).Nodup →
      ∀ (i : Nat) (h : i < results.length),
        resolve_selection results (display_label (results.get ⟨i, h⟩)) =
          some (results.get ⟨i, h⟩)) := by
  refine ⟨fun results => ⟨rfl, by simp [display_labels]⟩, ?_, ?_⟩
  · intro c
    simp only [display_label]
    by_cases h60 : 60 < (c.name ++ " (".toList ++ basename c.repo ++ ")".toList).length
    · rw [if_pos h60]
      have h3 : ("...".toList).length = 3 := rfl
      rw [List.length_append, List.length_take, h3, Nat.min_eq_left (by omega)]
    · rw [if_neg h60]
      omega
  · intro results hnd i h
    have hlen : i < (display_labels results).length := by
      simpa [display_labels] using h
    have hget : (display_labels results).get ⟨i, hlen⟩ =
        display_label (results.get ⟨i, h⟩) := by
      simp [display_labels, List.get_eq_getElem, List.getElem_map]
    have hfi := findIdx_first_eq (display_label (results.get ⟨i, h⟩))
      (display_labels results) i hlen hnd hget 0
    simp only [resolve_selection]
    rw [hfi]
    simp [Nat.zero_add, List.get?_eq_get h]

/-- C9 amended witness: with two candidates bearing distinct labels,
each label resolves back to its own candidate. -/
theorem display_labels_amended_witness :
    (display_labels
      [⟨"A.epub".toList, "a/A.epub".toList, "o/r".toList⟩,
       ⟨"B.epub".toList, "b/B.epub".toList, "o/r".toList⟩]).Nodup ∧
    (1 < ([⟨"A.epub".toList, "a/A.epub".toList, "o/r".toList⟩,
       ⟨"B.epub".toList, "b/B.epub".toList, "o/r".toList⟩] : List Candidate).length) ∧
    resolve_selection
      [⟨"A.epub".toList, "a/A.epub".toList, "o/r".toList⟩,
       ⟨"B.epub".toList, "b/B.epub".toList, "o/r".toList⟩]
      (display_label (([⟨"A.epub".toList, "a/A.epub".toList, "o/r".toList⟩,
       ⟨"B.epub".toList, "b/B.epub".toList, "o/r".toList⟩] : List Candidate).get
        ⟨1, by decide⟩)) =
      some (([⟨"A.epub".toList, "a/A.epub".toList, "o/r".toList⟩,
       ⟨"B.epub".toList, "b/B.epub".toList, "o/r".toList⟩] : List Candidate).get
        ⟨1, by decide⟩) :=
  ⟨by decide, by decide,
   display_labels_amended.2.2
     [⟨"A.epub".toList, "a/A.epub".toList, "o/r".toList⟩,
      ⟨"B.epub".toList, "b/B.epub".toList, "o/r".toList⟩]
     (by decide) 1 (by decide)⟩

/-- C10: when the title tokenizes to no keywords, the tree matcher
returns the empty sequence whatever the fetched tree holds, since a
candidate is appended only when some keyword matches. -/
theorem empty_tokens_scan_empty (repo_name book_name : Str) (tree : List Str)
    (h : tokenize book_name = []) :
    search_repo_for_epub repo_name book_name (some tree) = [] := by
  simp only [search_repo_for_epub, h]
  exact scan_tree_items_no_keywords repo_name tree

/-- C10 witness: a title of separators only tokenizes to nothing, and a
tree holding a matching-looking `.epub` entry still yields nothing. -/
theorem empty_tokens_scan_empty_witness :
    tokenize (", ，".toList) = [] ∧
    search_repo_for_epub ("o/r".toList) (", ，".toList)
      (some ["books/a.epub".toList]) = [] :=
  ⟨by decide, empty_tokens_scan_empty _ _ _ (by decide)⟩

end BookDownloader
